import Mathlib

/-!
Shallow embedding of the chatbot ingestion backend (Python sources under
`backend/`) together with proofs settling the frozen claims about it.

Conventions of the embedding:
* Python strings are Lean `String`s; character-level work happens on `List Char`.
* `time.time()` values are rationals; machine floats never overflow or round in
  the ranges exercised here, so `ℚ` is the faithful carrier for the comparisons
  the code performs.
* Concurrent loops (`asyncio.gather` over spawned tasks) are embedded as one
  sequential interleaving: spawned recursive calls run inline, depth bounded by
  an explicit fuel argument.  Properties proved below hold for every fuel.
* Network and HTML-parsing effects are oracles passed in as functions.
-/

set_option autoImplicit false

/-! ## Character-list utilities shared by the embeddings -/

/-- If `pat` is a leading pattern of `l`, return the remainder of `l` after it. -/
def matchAt? : List Char → List Char → Option (List Char)
  | [], l => some l
  | _ :: _, [] => none
  | p :: ps, c :: cs => if p = c then matchAt? ps cs else none

/-- Python `s.startswith(pat)`. -/
def startsWithS (s pat : String) : Bool :=
  (matchAt? pat.toList s.toList).isSome

/-- Python `s.endswith(pat)`. -/
def endsWithS (s pat : String) : Bool :=
  (matchAt? pat.toList.reverse s.toList.reverse).isSome

/-- Does `pat` occur as a contiguous run inside `l`? -/
def hasInfixL (pat : List Char) : List Char → Bool
  | [] => (matchAt? pat []).isSome
  | c :: rest => (matchAt? pat (c :: rest)).isSome || hasInfixL pat rest

/-- Python `pat in s` (substring containment). -/
def containsS (s pat : String) : Bool :=
  hasInfixL pat.toList s.toList

/-- Python `s.lower()` (ASCII case folding suffices for the URLs involved). -/
def lowerS (s : String) : String :=
  (s.toList.map Char.toLower).asString

/-- Python whitespace test used by `str.strip()` (the common four characters). -/
def isSpaceB (c : Char) : Bool :=
  c == ' ' || c == '\t' || c == '\n' || c == '\r'

/-- Python `s.strip()`. -/
def stripS (s : String) : String :=
  (((s.toList.dropWhile isSpaceB).reverse.dropWhile isSpaceB).reverse).asString

/-- Worker for Python `str.replace`: scan left to right, replacing
non-overlapping occurrences of `pat` by `rep`.  `fuel` bounds the recursion;
`l.length` is always enough fuel when `pat` is nonempty. -/
def replaceGo (pat rep : List Char) : ℕ → List Char → List Char
  | 0, l => l
  | _ + 1, [] => []
  | fuel + 1, c :: rest =>
    match matchAt? pat (c :: rest) with
    | some remainder => rep ++ replaceGo pat rep fuel remainder
    | none => c :: replaceGo pat rep fuel rest

/-- Python `s.replace(pat, rep)` for a nonempty `pat`. -/
def pyReplace (s pat rep : String) : String :=
  (replaceGo pat.toList rep.toList s.toList.length s.toList).asString

/-! ## `urllib.parse` fragments used by the sources -/

/-- Characters ending the netloc portion of a URL. -/
def notDelim (c : Char) : Bool :=
  !(c == '/' || c == '?' || c == '#')

/-- Netloc characters: everything up to the first `/`, `?` or `#`. -/
def takeUntilDelim (l : List Char) : List Char :=
  l.takeWhile notDelim

/-- `urlparse(u).netloc` for absolute http(s) URLs (the only kind the backend
feeds it); other strings have empty netloc, as urlparse reports for
scheme-less relative references. -/
def urlparse_netloc (u : String) : String :=
  match matchAt? "https://".toList u.toList with
  | some rest => (takeUntilDelim rest).asString
  | none =>
    match matchAt? "http://".toList u.toList with
    | some rest => (takeUntilDelim rest).asString
    | none => ""

/-- `urlparse(u).scheme` for absolute http(s) URLs. -/
def urlScheme (u : String) : String :=
  if startsWithS u "https://" then "https"
  else if startsWithS u "http://" then "http"
  else ""

/-- The path-and-beyond portion of an absolute http(s) URL. -/
def urlAfterNetloc (u : String) : String :=
  match matchAt? "https://".toList u.toList with
  | some rest => (rest.drop (takeUntilDelim rest).length).asString
  | none =>
    match matchAt? "http://".toList u.toList with
    | some rest => (rest.drop (takeUntilDelim rest).length).asString
    | none => u

/-- Directory of the base URL's path, used when resolving a relative reference:
the path up to and including its last `/`, or `/` when the path has none. -/
def dirOfPath (u : String) : String :=
  let p := (urlAfterNetloc u).toList.takeWhile notDelim
  let kept := (p.reverse.dropWhile (fun c => !(c == '/'))).reverse
  if kept = [] then "/" else kept.asString

/-- `urllib.parse.urljoin(base, url)` restricted to the shapes the crawler
produces: absolute http(s) targets, scheme-relative (`//…`), host-relative
(`/…`) and simple document-relative references without dot segments. -/
def urljoin (base url : String) : String :=
  if startsWithS url "http://" || startsWithS url "https://" then url
  else if url = "" then base
  else if startsWithS url "//" then urlScheme base ++ ":" ++ url
  else if startsWithS url "/" then urlScheme base ++ "://" ++ urlparse_netloc base ++ url
  else urlScheme base ++ "://" ++ urlparse_netloc base ++ dirOfPath base ++ url

/-! ## Normalization of `crawler.py` / `async_crawler.py` -/

/-- Fragment test used by `urldefrag`. -/
def notHash (c : Char) : Bool :=
  c != '#'

/-- `urldefrag(u)[0]` on characters: everything before the first `#`. -/
def defragChars (l : List Char) : List Char :=
  l.takeWhile notHash

/-- Python `s.rstrip('/')` on characters. -/
def rstripSlash (l : List Char) : List Char :=
  (l.reverse.dropWhile (fun c => c == '/')).reverse

namespace AsyncRecursiveCrawler

/-- `AsyncRecursiveCrawler.normalize_url`: drop the fragment, then strip
trailing slashes. -/
def normalize_url (url : String) : String :=
  (rstripSlash (defragChars url.toList)).asString

end AsyncRecursiveCrawler

namespace RecursiveCrawler

/-- `RecursiveCrawler.normalize_url`: identical text to the async variant. -/
def normalize_url (url : String) : String :=
  (rstripSlash (defragChars url.toList)).asString

end RecursiveCrawler

/-! ## Rate limiter (`rate_limiter.py`) -/

namespace RateLimiterM

/-- The `RateLimiter` object: its two configuration fields and the
`defaultdict(list)` of per-key request timestamps, embedded as an association
list (absent key ↦ `[]`). -/
structure RateLimiter where
  max_requests : ℕ
  window_seconds : ℚ
  requests : List (String × List ℚ)

/-- Read `self.requests[key]` with `defaultdict` semantics. -/
def getReq (l : List (String × List ℚ)) (k : String) : List ℚ :=
  match l.find? (fun p => p.1 == k) with
  | some p => p.2
  | none => []

/-- Assign `self.requests[key] = v`. -/
def setReq : List (String × List ℚ) → String → List ℚ → List (String × List ℚ)
  | [], k, v => [(k, v)]
  | (k', v') :: rest, k, v =>
    if k' = k then (k, v) :: rest else (k', v') :: setReq rest k v

/-- `RateLimiter.is_allowed(key)` at wall-clock instant `now`: purge expired
timestamps, admit iff the key holds fewer than `max_requests` live ones, and
record `now` on admission.  Returns the verdict and the updated limiter. -/
def is_allowed (rl : RateLimiter) (key : String) (now : ℚ) : Bool × RateLimiter :=
  let purged := (getReq rl.requests key).filter (fun t => now - t < rl.window_seconds)
  if purged.length < rl.max_requests then
    (true, { rl with requests := setReq rl.requests key (purged ++ [now]) })
  else
    (false, { rl with requests := setReq rl.requests key purged })

/-- `RateLimiter.get_remaining(key)` at instant `now`: purge, then report
`max(0, max_requests - live)` without recording anything. -/
def get_remaining (rl : RateLimiter) (key : String) (now : ℚ) : ℤ × RateLimiter :=
  let purged := (getReq rl.requests key).filter (fun t => now - t < rl.window_seconds)
  (max 0 ((rl.max_requests : ℤ) - purged.length),
   { rl with requests := setReq rl.requests key purged })

end RateLimiterM

/-! ## URL discovery (`url_discovery.py`) -/

namespace AsyncURLDiscovery

/-- `AsyncURLDiscovery.normalize_url(base, url)`: join against the base, keep
doubled slashes of a scheme-less `url` intact via the special branch, and
percent-encode spaces. -/
def normalize_url (base url : String) : String :=
  let absolute := urljoin base url
  if containsS url "//" && !(startsWithS url "http") then
    urlScheme absolute ++ "://" ++ urlparse_netloc absolute ++ pyReplace url " " "%20"
  else
    pyReplace absolute " " "%20"

/-- The crawl's shared mutable state: `self.visited` and `self.found_urls`,
embedded as duplicate-free lists. -/
structure DiscoveryState where
  visited : List String
  found_urls : List String

/-- The network oracle for discovery: `none` models an exception during
`session.get`, `some (contentType, hrefs)` a response whose anchor `href`
attributes are `hrefs` (HTML parsing is folded into the oracle). -/
abbrev DiscoveryWeb := String → Option (String × List String)

/-- `AsyncURLDiscovery.fetch`: on a successful response the fetched URL is
recorded in `found_urls` before the content-type test; non-HTML responses and
exceptions yield no links. -/
def fetch (web : DiscoveryWeb) (st : DiscoveryState) (url : String) :
    Option (List String) × DiscoveryState :=
  match web url with
  | none => (none, st)
  | some (contentType, hrefs) =>
    let st := { st with found_urls := st.found_urls.insert url }
    if containsS contentType "text/html" then (some hrefs, st) else (none, st)

/-- One iteration of the link loop in `crawl_url`, with the recursive crawl of
a fresh link passed in as `recurse`.  The loop's `break` on reaching
`max_urls` is embedded as the leading guard: once the cap is reached no later
iteration changes the state, which yields the same final state. -/
def processHref (recurse : DiscoveryState → String → DiscoveryState)
    (allowed_domain : String) (max_urls : ℕ) (base : String)
    (st : DiscoveryState) (rawHref : String) : DiscoveryState :=
  if max_urls ≤ st.found_urls.length then st
  else
    let href := stripS rawHref
    if startsWithS href "mailto:" || startsWithS href "javascript:" ||
        startsWithS href "#" || startsWithS href "tel:" then st
    else
      let new_url := normalize_url base href
      if endsWithS (urlparse_netloc new_url) allowed_domain then
        let st' := { st with found_urls := st.found_urls.insert new_url }
        if new_url ∉ st'.visited ∧ st'.found_urls.length < max_urls then
          recurse st' new_url
        else st'
      else st

/-- `AsyncURLDiscovery.crawl_url`, one sequential interleaving of the spawned
tasks: recursive crawls run inline at the point the task is created.  `fuel`
bounds the recursion depth; every theorem below holds for every fuel. -/
def crawl_url (web : DiscoveryWeb) (allowed_domain : String) (max_urls : ℕ) :
    ℕ → DiscoveryState → String → DiscoveryState
  | 0, st, _ => st
  | fuel + 1, st, url =>
    if url ∈ st.visited ∨ max_urls ≤ st.found_urls.length then st
    else
      let st := { st with visited := st.visited.insert url }
      match fetch web st url with
      | (none, st') => st'
      | (some hrefs, st') =>
        hrefs.foldl
          (processHref (crawl_url web allowed_domain max_urls fuel)
            allowed_domain max_urls url) st'

/-- Lexicographic code-point comparison on character lists — the order Python
`sorted` uses on strings. -/
def lexLe : List Char → List Char → Bool
  | [], _ => true
  | _ :: _, [] => false
  | a :: as, b :: bs =>
    if a.toNat < b.toNat then true
    else if b.toNat < a.toNat then false
    else lexLe as bs

/-- Python's `s1 <= s2` on strings. -/
def strLe (a b : String) : Bool :=
  lexLe a.toList b.toList

/-- Insert a string into an ascending list. -/
def insortS (a : String) : List String → List String
  | [] => [a]
  | b :: t => if strLe a b then a :: b :: t else b :: insortS a t

/-- Python `sorted` on a collection of strings. -/
def sortStrings (l : List String) : List String :=
  l.foldr insortS []

/-- `AsyncURLDiscovery.discover`: crawl every seed from the empty state and
return the found set, sorted. -/
def discover (web : DiscoveryWeb) (allowed_domain : String) (max_urls fuel : ℕ)
    (seed_urls : List String) : List String :=
  sortStrings
    (seed_urls.foldl (fun st u => crawl_url web allowed_domain max_urls fuel st u)
      ⟨[], []⟩).found_urls

end AsyncURLDiscovery

/-! ## Content extraction (`async_crawler.py`) -/

namespace AsyncRecursiveCrawler

/-- The exclusion patterns of `is_valid_url`.  Each regex in the source is
either a plain substring test (`re.search` with no anchors) or, when anchored
by `$`, a suffix test, applied to the lowercased URL. -/
def matchesSkipPattern (url : String) : Bool :=
  let u := lowerS url
  containsS u "/login" || containsS u "/logout" || containsS u "/signin" ||
  containsS u "/signup" || containsS u "/admin" || containsS u "/api/" ||
  containsS u "/wp-admin" || containsS u "/print/" || containsS u "/download/" ||
  endsWithS u ".pdf" || endsWithS u ".jpg" || endsWithS u ".jpeg" ||
  endsWithS u ".png" || endsWithS u ".gif" || endsWithS u ".svg" ||
  endsWithS u ".webp" || endsWithS u ".ico" || endsWithS u ".bmp" ||
  endsWithS u ".mp4" || endsWithS u ".avi" || endsWithS u ".mov" ||
  endsWithS u ".wmv" || endsWithS u ".flv" || endsWithS u ".webm" ||
  endsWithS u ".mkv" || endsWithS u ".mp3" || endsWithS u ".wav" ||
  endsWithS u ".ogg" || endsWithS u ".m4a" || endsWithS u ".flac" ||
  endsWithS u ".aac" || endsWithS u ".doc" || endsWithS u ".docx" ||
  endsWithS u ".xls" || endsWithS u ".xlsx" || endsWithS u ".ppt" ||
  endsWithS u ".pptx" || endsWithS u ".css" || endsWithS u ".js" ||
  endsWithS u ".xml" || endsWithS u ".json" || endsWithS u ".zip" ||
  endsWithS u ".tar" || endsWithS u ".gz" || endsWithS u ".rar" ||
  endsWithS u ".7z" || containsS u "?share=" || containsS u "?print=" ||
  containsS u "?replytocom="

/-- `AsyncRecursiveCrawler.is_valid_url`: same domain or a dot-separated
subdomain, and no exclusion pattern. -/
def is_valid_url (domain url : String) : Bool :=
  (urlparse_netloc url = domain || endsWithS (urlparse_netloc url) ("." ++ domain)) &&
  !(matchesSkipPattern url)

end AsyncRecursiveCrawler

/-- A LangChain `Document` as the backend populates it: extracted text plus
the metadata fields the claims mention (`crawled_at` timestamps are omitted —
no claim reads them). -/
structure Document where
  page_content : String
  source : String
  title : String
  description : String
  depth : ℕ
  deriving DecidableEq

namespace AsyncRecursiveCrawler

/-- The crawler object's mutable fields and caps. -/
structure CrawlerState where
  visited : List String
  documents : List Document
  error_count : ℕ
  max_pages : ℕ
  max_errors : ℕ
  log_lines : List String

/-- An HTTP response as `fetch_and_parse` inspects it. -/
structure HttpResponse where
  status : ℕ
  content_type : String
  body : String

/-- Outcome of one `fetch_and_parse` call: the produced document if any, the
state afterwards, and whether any network request was issued. -/
structure FetchOutcome where
  doc : Option Document
  st : CrawlerState
  didFetch : Bool

/-- `AsyncRecursiveCrawler.fetch_and_parse`.  `net url = none` models an
exception inside `session.get`; `parse body = none` an exception while
souping/extracting, and `some (text, title, description)` the extracted
content.  The opening guard is the atomic check-and-mark under `self.lock`. -/
def fetch_and_parse (net : String → Option HttpResponse)
    (parse : String → Option (String × String × String))
    (st : CrawlerState) (url : String) (depth : ℕ) : FetchOutcome :=
  if url ∈ st.visited ∨ st.max_pages ≤ st.documents.length ∨
      st.max_errors ≤ st.error_count then
    ⟨none, st, false⟩
  else
    let st := { st with visited := st.visited.insert url }
    match net url with
    | none =>
      ⟨none, { st with error_count := st.error_count + 1,
                       log_lines := st.log_lines ++ ["[ERROR] " ++ url] }, true⟩
    | some resp =>
      if resp.status ≠ 200 then
        ⟨none, { st with error_count := st.error_count + 1,
                         log_lines := st.log_lines ++
                           ["[ERROR] Failed to fetch " ++ url] }, true⟩
      else if !(containsS (lowerS resp.content_type) "text/html" ||
                containsS (lowerS resp.content_type) "text/plain" ||
                containsS (lowerS resp.content_type) "application/xhtml") then
        ⟨none, { st with log_lines := st.log_lines ++
                   ["[SKIPPED] Non-HTML: " ++ url] }, true⟩
      else
        match parse resp.body with
        | none =>
          ⟨none, { st with error_count := st.error_count + 1,
                           log_lines := st.log_lines ++
                             ["[ERROR] Parsing " ++ url] }, true⟩
        | some (text, title, description) =>
          if 1000000 < text.length ∨ text.length < 100 then
            ⟨none, { st with log_lines := st.log_lines ++
                       ["[SKIPPED] Invalid size: " ++ url] }, true⟩
          else
            let doc : Document := ⟨text, url, title, description, depth⟩
            ⟨some doc,
             { st with documents := st.documents ++ [doc],
                       log_lines := st.log_lines ++ ["[SUCCESS] " ++ url] },
             true⟩

end AsyncRecursiveCrawler

/-! ## Ingestion pipeline pieces (`ingest.py`) -/

namespace Ingest

/-- Stand-in for `hashlib.md5(...).hexdigest()`: an injective encoding of the
hashed string.  The dedup logic only compares digests for equality, and md5 is
collision-free on the inputs a run produces, so an injective model is the
faithful embedding. -/
def md5_hexdigest (s : String) : String :=
  s

/-- `calculate_doc_hash`: hash of the page content concatenated with the
source URL (no separator between the two fields). -/
def calculate_doc_hash (doc : Document) : String :=
  md5_hexdigest (doc.page_content ++ doc.source)

/-- The dedup loop of `ingest` with its accumulated `seen_hashes`. -/
def dedupGo (seen : List String) : List Document → List Document
  | [] => []
  | d :: ds =>
    let h := calculate_doc_hash d
    if h ∈ seen then dedupGo seen ds
    else d :: dedupGo (h :: seen) ds

/-- The deduplication pass of `ingest` (lines 189–198): keep a document only
when its hash was not seen before. -/
def dedup_documents (docs : List Document) : List Document :=
  dedupGo [] docs

/-- `ingest`'s domain derivation: `urlparse(url).netloc.replace('www.', '')`.
Note: every occurrence of `www.` is removed and no lowercasing happens. -/
def ingest_domain (url : String) : String :=
  pyReplace (urlparse_netloc url) "www." ""

/-- `ingest`'s namespace derivation: the domain with dots replaced by
underscores. -/
def ingest_namespace (url : String) : String :=
  pyReplace (ingest_domain url) "." "_"

/-- The same namespace computation as a function of a netloc string; the
URL-level map factors through it. -/
def namespaceOfNetloc (netloc : String) : String :=
  pyReplace (pyReplace netloc "www." "") "." "_"

/-- Modelled from the spec: the chunking step delegates to LangChain's
`RecursiveCharacterTextSplitter`, which is not part of this repository; the
spec describes it as splitting text into overlapping fixed-size windows of
size `S` with overlap `O` (`O < S`).  Worker: emit a full window and slide by
`S - O` until the remainder fits in one window.  `fuel ≥ text.length` always
suffices. -/
def chunkGo (S O : ℕ) : ℕ → List Char → List (List Char)
  | 0, text => [text]
  | fuel + 1, text =>
    if text.length ≤ S then [text]
    else text.take S :: chunkGo S O fuel (text.drop (S - O))

/-- Modelled from the spec: `split_text S O text` — the overlapping
fixed-size-window chunking of one document's text. -/
def split_text (S O : ℕ) (text : List Char) : List (List Char) :=
  chunkGo S O text.length text

/-- Do all consecutive chunk pairs overlap by exactly `O` characters: the last
`O` characters of each chunk equal the first `O` of its successor? -/
def consecutiveOverlap (O : ℕ) : List (List Char) → Bool
  | [] => true
  | [_] => true
  | a :: b :: t =>
    if a.drop (a.length - O) = b.take O then consecutiveOverlap O (b :: t)
    else false

end Ingest

/-! ## Crawl submission endpoint (`app.py`) -/

namespace App

/-- The responses the `/api/crawl` route can produce. -/
inductive CrawlResponse where
  | missingUrl
  | invalidUrl
  | alreadyRunning
  | started (crawl_id : String)
  deriving DecidableEq

/-- The `crawl_status` module-level dict, reduced to the field the endpoint
reads: each entry's `status` string, keyed by the dict key. -/
abbrev CrawlStatus := List (String × String)

/-- `crawl_status[k]['status']` when `k` is present. -/
def lookupStatus (st : CrawlStatus) (k : String) : Option String :=
  (st.find? (fun p => p.1 == k)).map (fun p => p.2)

/-- The `/api/crawl` handler `crawl` at wall-clock second `now`: validate the
URL, reject when `crawl_status[url]` exists with status `running`, otherwise
create an entry under the key `f"{url}_{int(time.time())}"` and report the new
id.  (The background thread that later flips the status is irrelevant to the
submission claim.) -/
def crawl (st : CrawlStatus) (url : String) (now : ℕ) : CrawlResponse × CrawlStatus :=
  if url = "" then (.missingUrl, st)
  else if !(startsWithS url "http://" || startsWithS url "https://") then
    (.invalidUrl, st)
  else if lookupStatus st url = some "running" then (.alreadyRunning, st)
  else
    let crawl_id := url ++ "_" ++ toString now
    (.started crawl_id, st ++ [(crawl_id, "running")])

end App

/-! ## Spec-side definitions used for comparison -/

/-- The CandidateURL invariant in the spec's words: host equals or is a
subdomain of the target domain (the equals-or-dot-suffix test, as
`is_valid_url` spells it), no exclusion pattern matches, the fragment is
stripped, and there is no trailing slash. -/
def candidate_url_invariant (domain u : String) : Bool :=
  (urlparse_netloc u = domain || endsWithS (urlparse_netloc u) ("." ++ domain)) &&
  !(AsyncRecursiveCrawler.matchesSkipPattern u) &&
  !(containsS u "#") && !(endsWithS u "/")

/-- A concrete five-page fixture web for the discovery counterexample: the
root links to a PDF, a trailing-slash page, a page with a fragment, and a
lookalike domain that merely ends with the target domain. -/
def web0 : AsyncURLDiscovery.DiscoveryWeb :=
  fun u =>
    if u = "https://kluniversity.in" then
      some ("text/html",
        ["https://kluniversity.in/file.pdf",
         "https://kluniversity.in/a/",
         "https://kluniversity.in/p#sec",
         "https://evilkluniversity.in/x"])
    else none

/-! # Helper lemmas -/

theorem toList_asString (l : List Char) : (List.asString l).toList = l := rfl

theorem toList_append (s t : String) : (s ++ t).toList = s.toList ++ t.toList := rfl

theorem matchAt?_append (pat rest : List Char) : matchAt? pat (pat ++ rest) = some rest := by
  induction pat with
  | nil => rfl
  | cons p ps ih => simp [matchAt?, ih]

theorem matchAt?_length {pat l r : List Char} (h : matchAt? pat l = some r) :
    r.length + pat.length = l.length := by
  induction pat generalizing l with
  | nil =>
    simp [matchAt?] at h
    simp [h]
  | cons p ps ih =>
    match l with
    | [] => simp [matchAt?] at h
    | c :: cs =>
      by_cases hpc : p = c
      · simp only [matchAt?, if_pos hpc] at h
        have := ih h
        simp [List.length_cons]
        omega
      · simp [matchAt?, hpc] at h

/-! ## Lemmas for the `normalize_url` claims -/

theorem dropWhile_self_idem {α : Type} (p : α → Bool) (l : List α) :
    (l.dropWhile p).dropWhile p = l.dropWhile p := by
  induction l with
  | nil => rfl
  | cons a t ih =>
    by_cases h : p a
    · simp [List.dropWhile_cons, h, ih]
    · simp [List.dropWhile_cons, h]

theorem rstripSlash_idem (l : List Char) : rstripSlash (rstripSlash l) = rstripSlash l := by
  simp [rstripSlash, dropWhile_self_idem]

theorem hash_not_mem_defrag (l : List Char) : '#' ∉ defragChars l := by
  intro h
  have := List.mem_takeWhile_imp h
  simp [notHash] at this

theorem defrag_of_no_hash {l : List Char} (h : '#' ∉ l) : defragChars l = l := by
  induction l with
  | nil => rfl
  | cons a t ih =>
    simp only [List.mem_cons, not_or] at h
    have ha : notHash a = true := by
      simp [notHash]
      exact fun hc => h.1 hc.symm
    simp [defragChars, List.takeWhile_cons, ha] at ih ⊢
    exact ih h.2

theorem mem_rstripSlash {l : List Char} {c : Char} (h : c ∈ rstripSlash l) : c ∈ l := by
  simp only [rstripSlash, List.mem_reverse] at h
  have := (List.dropWhile_sublist (l := l.reverse) (p := fun c => c == '/')).subset h
  simpa using this

theorem defrag_append_hash (x y : List Char) :
    defragChars (x ++ '#' :: y) = defragChars x := by
  induction x with
  | nil => simp [defragChars, List.takeWhile_cons, notHash]
  | cons a t ih =>
    by_cases h : notHash a
    · simp [defragChars, List.takeWhile_cons, h] at ih ⊢
      exact ih
    · simp [defragChars, List.takeWhile_cons, h]

theorem takeWhile_append_all {α : Type} {p : α → Bool} {x : List α}
    (h : ∀ a ∈ x, p a) (y : List α) :
    (x ++ y).takeWhile p = x ++ y.takeWhile p := by
  induction x with
  | nil => rfl
  | cons a t ih =>
    have ha : p a := h a (by simp)
    simp [List.takeWhile_cons, ha]
    exact ih (fun b hb => h b (by simp [hb]))

theorem takeWhile_append_stop {α : Type} {p : α → Bool} {x : List α}
    (h : ∃ a ∈ x, p a = false) (y : List α) :
    (x ++ y).takeWhile p = x.takeWhile p := by
  induction x with
  | nil => simp at h
  | cons a t ih =>
    by_cases ha : p a
    · obtain ⟨b, hb, hpb⟩ := h
      rcases List.mem_cons.mp hb with rfl | hb'
      · rw [ha] at hpb; cases hpb
      · simp [List.takeWhile_cons, ha]
        exact ih ⟨b, hb', hpb⟩
    · simp [List.takeWhile_cons, ha]

theorem rstripSlash_append_slash (x : List Char) :
    rstripSlash (x ++ ['/']) = rstripSlash x := by
  simp [rstripSlash, List.dropWhile_cons]

theorem normalize_chars_append_slash (l : List Char) :
    rstripSlash (defragChars (l ++ ['/'])) = rstripSlash (defragChars l) := by
  by_cases h : '#' ∈ l
  · have : defragChars (l ++ ['/']) = defragChars l := by
      unfold defragChars
      exact takeWhile_append_stop ⟨'#', h, by simp [notHash]⟩ _
    rw [this]
  · have h1 : defragChars (l ++ ['/']) = l ++ ['/'] := by
      unfold defragChars
      rw [takeWhile_append_all]
      · simp [List.takeWhile_cons, notHash]
      · intro a ha
        simp [notHash]
        exact fun hc => h (hc ▸ ha)
    rw [h1, defrag_of_no_hash h, rstripSlash_append_slash]

/-- C9: The crawler's URL normalization is idempotent, two URLs differing only
by a fragment or a trailing slash normalize to the same string, and the
synchronous crawler's `normalize_url` is the same function as the async
one. -/
theorem c9_normalize_idempotent :
    (∀ u : String,
        AsyncRecursiveCrawler.normalize_url (AsyncRecursiveCrawler.normalize_url u) =
          AsyncRecursiveCrawler.normalize_url u)
    ∧ (∀ u f : String,
        AsyncRecursiveCrawler.normalize_url (u ++ "#" ++ f) =
          AsyncRecursiveCrawler.normalize_url u)
    ∧ (∀ u : String,
        AsyncRecursiveCrawler.normalize_url (u ++ "/") =
          AsyncRecursiveCrawler.normalize_url u)
    ∧ (∀ u : String,
        RecursiveCrawler.normalize_url u = AsyncRecursiveCrawler.normalize_url u) := by
  refine ⟨?_, ?_, ?_, fun _ => rfl⟩
  · intro u
    unfold AsyncRecursiveCrawler.normalize_url
    rw [toList_asString]
    have hnh : '#' ∉ rstripSlash (defragChars u.toList) := by
      intro h
      exact hash_not_mem_defrag _ (mem_rstripSlash h)
    rw [defrag_of_no_hash hnh, rstripSlash_idem]
  · intro u f
    unfold AsyncRecursiveCrawler.normalize_url
    have : (u ++ "#" ++ f).toList = u.toList ++ '#' :: f.toList := by
      rw [toList_append, toList_append, List.append_assoc]
      rfl
    rw [this, defrag_append_hash]
  · intro u
    unfold AsyncRecursiveCrawler.normalize_url
    have : (u ++ "/").toList = u.toList ++ ['/'] := by
      rw [toList_append]
      rfl
    rw [this, normalize_chars_append_slash]

/-- Witness for C9 at a concrete URL carrying both a fragment and a trailing
slash. -/
theorem c9_witness :
    AsyncRecursiveCrawler.normalize_url
        (AsyncRecursiveCrawler.normalize_url "https://a.com/x/#frag") =
      AsyncRecursiveCrawler.normalize_url "https://a.com/x/#frag" :=
  c9_normalize_idempotent.1 "https://a.com/x/#frag"

/-! ## Lemmas for the rate-limiter claims -/

theorem getReq_setReq_self (l : List (String × List ℚ)) (k : String) (v : List ℚ) :
    RateLimiterM.getReq (RateLimiterM.setReq l k v) k = v := by
  induction l with
  | nil => simp [RateLimiterM.setReq, RateLimiterM.getReq, List.find?]
  | cons p rest ih =>
    by_cases h : p.1 = k
    · simp [RateLimiterM.setReq, h, RateLimiterM.getReq, List.find?]
    · simp only [RateLimiterM.setReq]
      rw [if_neg h]
      simp only [RateLimiterM.getReq, List.find?]
      have : (p.1 == k) = false := by simp [h]
      rw [this]
      exact ih

theorem filter_window_filter {w now now' : ℚ} (h : now ≤ now') (l : List ℚ) :
    (l.filter (fun t => now - t < w)).filter (fun t => now' - t < w) =
      l.filter (fun t => now' - t < w) := by
  induction l with
  | nil => rfl
  | cons t ts ih =>
    by_cases h1 : now - t < w
    · by_cases h2 : now' - t < w
      · simp [List.filter_cons, h1, h2, ih]
      · simp [List.filter_cons, h1, h2, ih]
    · have h2 : ¬ now' - t < w := by
        intro hc
        exact h1 (lt_of_le_of_lt (by linarith) hc)
      simp [List.filter_cons, h1, h2, ih]

/-- C6: `is_allowed` returns `true` iff fewer than `max_requests` recorded
timestamps for the key lie within the trailing window at check time, it
appends the current timestamp exactly on a `true` verdict, and the concrete
limit-3/window-10 scenario behaves as the spec describes. -/
theorem c6_is_allowed_spec :
    (∀ (rl : RateLimiterM.RateLimiter) (key : String) (now : ℚ),
        ((RateLimiterM.is_allowed rl key now).1 = true ↔
          ((RateLimiterM.getReq rl.requests key).filter
              (fun t => now - t < rl.window_seconds)).length < rl.max_requests)
        ∧ RateLimiterM.getReq (RateLimiterM.is_allowed rl key now).2.requests key =
            (RateLimiterM.getReq rl.requests key).filter
              (fun t => now - t < rl.window_seconds) ++
            (if (RateLimiterM.is_allowed rl key now).1 then [now] else []))
    ∧ ((RateLimiterM.is_allowed ⟨3, 10, []⟩ "k" 0).1 = true
       ∧ (RateLimiterM.is_allowed (RateLimiterM.is_allowed ⟨3, 10, []⟩ "k" 0).2 "k" 1).1 = true
       ∧ (RateLimiterM.is_allowed (RateLimiterM.is_allowed
            (RateLimiterM.is_allowed ⟨3, 10, []⟩ "k" 0).2 "k" 1).2 "k" 2).1 = true
       ∧ (RateLimiterM.is_allowed (RateLimiterM.is_allowed (RateLimiterM.is_allowed
            (RateLimiterM.is_allowed ⟨3, 10, []⟩ "k" 0).2 "k" 1).2 "k" 2).2 "k" 3).1 = false
       ∧ (RateLimiterM.is_allowed (RateLimiterM.is_allowed (RateLimiterM.is_allowed
            (RateLimiterM.is_allowed (RateLimiterM.is_allowed ⟨3, 10, []⟩ "k" 0).2
              "k" 1).2 "k" 2).2 "k" 3).2 "k" 11).1 = true) := by
  constructor
  · intro rl key now
    constructor
    · unfold RateLimiterM.is_allowed
      by_cases h : ((RateLimiterM.getReq rl.requests key).filter
          (fun t => now - t < rl.window_seconds)).length < rl.max_requests
      · simp [h]
      · simp [h]
    · unfold RateLimiterM.is_allowed
      by_cases h : ((RateLimiterM.getReq rl.requests key).filter
          (fun t => now - t < rl.window_seconds)).length < rl.max_requests
      · simp only [if_pos h]
        rw [getReq_setReq_self]
        simp
      · simp only [if_neg h]
        rw [getReq_setReq_self]
        simp
  · refine ⟨?_, ?_, ?_, ?_, ?_⟩ <;>
      norm_num [RateLimiterM.is_allowed, RateLimiterM.getReq, RateLimiterM.setReq,
        List.find?, List.filter]

/-! ## Lemmas for the namespace claim -/

theorem replaceGo_fuel {pat rep : List Char} (hp : pat ≠ []) :
    ∀ (f₁ f₂ : ℕ) (l : List Char), l.length ≤ f₁ → l.length ≤ f₂ →
      replaceGo pat rep f₁ l = replaceGo pat rep f₂ l := by
  intro f₁
  induction f₁ with
  | zero =>
    intro f₂ l h1 _
    have : l = [] := List.length_eq_zero.mp (Nat.le_zero.mp h1)
    subst this
    cases f₂ <;> rfl
  | succ f ih =>
    intro f₂ l h1 h2
    match l with
    | [] => cases f₂ <;> rfl
    | c :: cs =>
      have hlc : (c :: cs).length = cs.length + 1 := by simp
      obtain ⟨f₂', rfl⟩ : ∃ f₂', f₂ = f₂' + 1 := by
        cases f₂ with
        | zero => omega
        | succ n => exact ⟨n, rfl⟩
      simp only [replaceGo]
      cases hm : matchAt? pat (c :: cs) with
      | none =>
        show c :: replaceGo pat rep f cs = c :: replaceGo pat rep f₂' cs
        rw [ih f₂' cs (by omega) (by omega)]
      | some r =>
        have hlen := matchAt?_length hm
        have hpat : 1 ≤ pat.length := by
          cases pat with
          | nil => exact absurd rfl hp
          | cons _ _ => simp only [List.length_cons]; omega
        show rep ++ replaceGo pat rep f r = rep ++ replaceGo pat rep f₂' r
        rw [ih f₂' r (by omega) (by omega)]

theorem replaceGo_cons_match {pat rep l r : List Char} {fuel : ℕ}
    (hne : l ≠ []) (h : matchAt? pat l = some r) :
    replaceGo pat rep (fuel + 1) l = rep ++ replaceGo pat rep fuel r := by
  match l with
  | [] => exact absurd rfl hne
  | c :: cs => simp only [replaceGo, h]

theorem pyReplace_www_cons (d : String) :
    pyReplace ("www." ++ d) "www." "" = pyReplace d "www." "" := by
  unfold pyReplace
  rw [toList_append]
  have hlen : ("www.".toList ++ d.toList).length = d.toList.length + 4 := by
    have h4 : "www.".toList.length = 4 := rfl
    simp only [List.length_append, h4]
    omega
  rw [replaceGo_fuel (by decide) (("www.".toList ++ d.toList).length)
    (d.toList.length + 4) ("www.".toList ++ d.toList) (le_refl _) (le_of_eq hlen)]
  have h4 : d.toList.length + 4 = (d.toList.length + 3) + 1 := rfl
  rw [h4, replaceGo_cons_match (by simp) (matchAt?_append "www.".toList d.toList)]
  rw [replaceGo_fuel (by decide) (d.toList.length + 3) d.toList.length d.toList
    (by omega) (le_refl _)]
  rfl

theorem takeUntilDelim_www (dl : List Char) :
    takeUntilDelim ("www.".toList ++ dl) = "www.".toList ++ takeUntilDelim dl := rfl

theorem urlparse_netloc_https (d : String) :
    urlparse_netloc ("https://" ++ d) = (takeUntilDelim d.toList).asString := by
  unfold urlparse_netloc
  rw [toList_append, matchAt?_append]

/-- C3 (amended): the ingest namespace is a deterministic function of the root
URL's netloc — every occurrence of `www.` removed and dots replaced by
underscores, with no lowercasing — and root URLs differing only by a leading
`www.` in the domain still map to equal namespaces. -/
theorem c3_namespace_function_of_netloc :
    (∀ u : String,
        Ingest.ingest_namespace u = Ingest.namespaceOfNetloc (urlparse_netloc u))
    ∧ (∀ d : String,
        Ingest.ingest_namespace ("https://www." ++ d) =
          Ingest.ingest_namespace ("https://" ++ d)) := by
  constructor
  · intro u
    rfl
  · intro d
    unfold Ingest.ingest_namespace Ingest.ingest_domain
    have hs : ("https://www." ++ d) = "https://" ++ ("www." ++ d) := by
      rw [← String.append_assoc]
      rfl
    rw [hs, urlparse_netloc_https, urlparse_netloc_https, toList_append,
      takeUntilDelim_www]
    have ha : List.asString ("www.".toList ++ takeUntilDelim d.toList) =
        "www." ++ List.asString (takeUntilDelim d.toList) := rfl
    rw [ha, pyReplace_www_cons]

/-- Witness for C3: a `www.`-prefixed and a bare domain map to one
namespace. -/
theorem c3_witness :
    Ingest.ingest_namespace ("https://www." ++ "example.com") =
      Ingest.ingest_namespace ("https://" ++ "example.com") :=
  c3_namespace_function_of_netloc.2 "example.com"

/-- C3 counterexample: the code never lowercases the domain, so two root URLs
whose domains differ only in letter case produce different namespaces. -/
theorem c3_counterexample :
    Ingest.ingest_namespace "https://Example.com" ≠
      Ingest.ingest_namespace "https://example.com" := by
  decide

/-! ## Lemmas for the dedup claim -/

theorem dedupGo_sublist (seen : List String) (ds : List Document) :
    (Ingest.dedupGo seen ds).Sublist ds := by
  induction ds generalizing seen with
  | nil => simp [Ingest.dedupGo]
  | cons d tail ih =>
    by_cases h : Ingest.calculate_doc_hash d ∈ seen
    · simp only [Ingest.dedupGo, if_pos h]
      exact (ih seen).cons d
    · simp only [Ingest.dedupGo, if_neg h]
      exact (ih _).cons₂ d

theorem dedupGo_nodup_disjoint (seen : List String) (ds : List Document) :
    ((Ingest.dedupGo seen ds).map Ingest.calculate_doc_hash).Nodup
    ∧ ∀ x ∈ (Ingest.dedupGo seen ds).map Ingest.calculate_doc_hash, x ∉ seen := by
  induction ds generalizing seen with
  | nil => simp [Ingest.dedupGo]
  | cons d tail ih =>
    by_cases h : Ingest.calculate_doc_hash d ∈ seen
    · simp only [Ingest.dedupGo, if_pos h]
      exact ih seen
    · simp only [Ingest.dedupGo, if_neg h, List.map_cons, List.nodup_cons]
      obtain ⟨ihn, ihd⟩ := ih (Ingest.calculate_doc_hash d :: seen)
      refine ⟨⟨fun hm => ?_, ihn⟩, ?_⟩
      · exact ihd _ hm (by simp)
      · intro x hx
        rcases List.mem_cons.mp hx with rfl | hx'
        · exact h
        · intro hxs
          exact ihd x hx' (by simp [hxs])

theorem dedupGo_covers (seen : List String) (ds : List Document) :
    ∀ d ∈ ds, Ingest.calculate_doc_hash d ∈ seen ∨
      Ingest.calculate_doc_hash d ∈ (Ingest.dedupGo seen ds).map Ingest.calculate_doc_hash := by
  induction ds generalizing seen with
  | nil => simp
  | cons e tail ih =>
    intro d hd
    by_cases h : Ingest.calculate_doc_hash e ∈ seen
    · simp only [Ingest.dedupGo, if_pos h]
      rcases List.mem_cons.mp hd with rfl | hd'
      · exact Or.inl h
      · exact ih seen d hd'
    · simp only [Ingest.dedupGo, if_neg h, List.map_cons]
      rcases List.mem_cons.mp hd with rfl | hd'
      · exact Or.inr (by simp)
      · rcases ih (Ingest.calculate_doc_hash e :: seen) d hd' with hs | ho
        · rcases List.mem_cons.mp hs with heq | hs'
          · exact Or.inr (by simp [heq])
          · exact Or.inl hs'
        · exact Or.inr (List.mem_cons_of_mem _ ho)

theorem dedupGo_keeps_first :
    ∀ (l₁ : List Document) (seen : List String) (d : Document) (l₂ : List Document),
      (∀ e ∈ l₁, Ingest.calculate_doc_hash e ≠ Ingest.calculate_doc_hash d) →
      Ingest.calculate_doc_hash d ∉ seen →
      d ∈ Ingest.dedupGo seen (l₁ ++ d :: l₂) := by
  intro l₁
  induction l₁ with
  | nil =>
    intro seen d l₂ _ hns
    simp only [List.nil_append, Ingest.dedupGo, if_neg hns]
    exact List.mem_cons_self _ _
  | cons e l₁' ih =>
    intro seen d l₂ hne hns
    by_cases h : Ingest.calculate_doc_hash e ∈ seen
    · simp only [List.cons_append, Ingest.dedupGo, if_pos h]
      exact ih seen d l₂ (fun x hx => hne x (by simp [hx])) hns
    · simp only [List.cons_append, Ingest.dedupGo, if_neg h]
      refine List.mem_cons_of_mem _ (ih _ d l₂ (fun x hx => hne x (by simp [hx])) ?_)
      intro hc
      rcases List.mem_cons.mp hc with heq | hc'
      · exact hne e (by simp) heq.symm
      · exact hns hc'

/-- C8 (amended): the dedup pass keyed by the hash of the concatenation
`page_content ++ source` is a stable filter — its output is a sublist of the
input (so relative order is preserved and the output is no longer than the
input), output hashes are pairwise distinct, every input hash is represented,
and the first document of the input carrying a given hash is always kept. -/
theorem c8_dedup_keeps_first_by_hash (docs : List Document) :
    (Ingest.dedup_documents docs).Sublist docs
    ∧ (Ingest.dedup_documents docs).length ≤ docs.length
    ∧ ((Ingest.dedup_documents docs).map Ingest.calculate_doc_hash).Nodup
    ∧ (∀ d ∈ docs, Ingest.calculate_doc_hash d ∈
        (Ingest.dedup_documents docs).map Ingest.calculate_doc_hash)
    ∧ (∀ (l₁ : List Document) (d : Document) (l₂ : List Document),
        docs = l₁ ++ d :: l₂ →
        (∀ e ∈ l₁, Ingest.calculate_doc_hash e ≠ Ingest.calculate_doc_hash d) →
        d ∈ Ingest.dedup_documents docs) := by
  refine ⟨dedupGo_sublist [] docs, (dedupGo_sublist [] docs).length_le,
    (dedupGo_nodup_disjoint [] docs).1, ?_, ?_⟩
  · intro d hd
    rcases dedupGo_covers [] docs d hd with hs | ho
    · simp at hs
    · exact ho
  · intro l₁ d l₂ hsplit hne
    rw [Ingest.dedup_documents, hsplit]
    exact dedupGo_keeps_first l₁ [] d l₂ hne (by simp)

/-- Witness for C8: on a list whose first and third documents share a hash,
the first occurrence is kept. -/
theorem c8_witness :
    ([⟨"x", "s", "", "", 0⟩, ⟨"y", "s", "", "", 0⟩, ⟨"x", "s", "", "", 0⟩] :
        List Document) =
      [] ++ (⟨"x", "s", "", "", 0⟩ : Document) ::
        [⟨"y", "s", "", "", 0⟩, ⟨"x", "s", "", "", 0⟩]
    ∧ (⟨"x", "s", "", "", 0⟩ : Document) ∈
        Ingest.dedup_documents
          [⟨"x", "s", "", "", 0⟩, ⟨"y", "s", "", "", 0⟩, ⟨"x", "s", "", "", 0⟩] :=
  ⟨rfl, (c8_dedup_keeps_first_by_hash _).2.2.2.2 [] _ _ rfl (by simp)⟩

/-- C8 counterexample: the hash concatenates text and source with no
separator, so two documents with different `(text, source)` pairs collide
(`"ab" ++ "c" = "a" ++ "bc"`); the second is dropped even though it is the
first occurrence of its own `(text, source)` group. -/
theorem c8_counterexample :
    Ingest.dedup_documents [⟨"ab", "c", "", "", 0⟩, ⟨"a", "bc", "", "", 0⟩] =
      [⟨"ab", "c", "", "", 0⟩]
    ∧ (Document.mk "a" "bc" "" "" 0).page_content ≠
        (Document.mk "ab" "c" "" "" 0).page_content
    ∧ (Document.mk "a" "bc" "" "" 0) ∉
        Ingest.dedup_documents [⟨"ab", "c", "", "", 0⟩, ⟨"a", "bc", "", "", 0⟩] := by
  decide

/-! ## Lemmas for the chunking claim -/

theorem chunkGo_length_le {S O : ℕ} :
    ∀ (fuel : ℕ) (text : List Char), O < S → text.length ≤ fuel →
      ∀ c ∈ Ingest.chunkGo S O fuel text, c.length ≤ S := by
  intro fuel
  induction fuel with
  | zero =>
    intro text _ hlen c hc
    have : text = [] := List.length_eq_zero.mp (Nat.le_zero.mp hlen)
    subst this
    simp [Ingest.chunkGo] at hc
    simp [hc]
  | succ f ih =>
    intro text hO hlen c hc
    by_cases h : text.length ≤ S
    · simp only [Ingest.chunkGo, if_pos h] at hc
      simp at hc
      simp [hc, h]
    · simp only [Ingest.chunkGo, if_neg h] at hc
      rcases List.mem_cons.mp hc with rfl | hc'
      · simp [List.length_take]
      · refine ih (text.drop (S - O)) hO ?_ c hc'
        rw [List.length_drop]
        omega

theorem chunkGo_head_take {S O : ℕ} (hO : O ≤ S) (fuel : ℕ) (text : List Char) :
    ∃ h t, Ingest.chunkGo S O fuel text = h :: t ∧ h.take O = text.take O := by
  cases fuel with
  | zero => exact ⟨text, [], rfl, rfl⟩
  | succ f =>
    by_cases h : text.length ≤ S
    · exact ⟨text, [], by simp [Ingest.chunkGo, if_pos h], rfl⟩
    · refine ⟨text.take S, Ingest.chunkGo S O f (text.drop (S - O)),
        by simp [Ingest.chunkGo, if_neg h], ?_⟩
      rw [List.take_take, min_eq_left hO]

theorem chunkGo_overlap {S O : ℕ} (hO : O < S) :
    ∀ (fuel : ℕ) (text : List Char),
      Ingest.consecutiveOverlap O (Ingest.chunkGo S O fuel text) = true := by
  intro fuel
  induction fuel with
  | zero => intro text; rfl
  | succ f ih =>
    intro text
    by_cases h : text.length ≤ S
    · simp [Ingest.chunkGo, if_pos h, Ingest.consecutiveOverlap]
    · simp only [Ingest.chunkGo, if_neg h]
      obtain ⟨hd, tl, heq, htake⟩ :=
        chunkGo_head_take (le_of_lt hO) f (text.drop (S - O))
      rw [heq]
      have hlen : (text.take S).length = S := by
        rw [List.length_take]
        omega
      have hcond : (text.take S).drop ((text.take S).length - O) = hd.take O := by
        rw [hlen, List.drop_take S (S - O) text]
        have : S - (S - O) = O := by omega
        rw [this, htake]
      simp only [Ingest.consecutiveOverlap, if_pos hcond]
      rw [← heq]
      exact ih (text.drop (S - O))

/-- C4 (spec-modelled): splitting a document's text of length at least 100
into windows of size `S` with overlap `O < S` yields chunks that are all of
length at most `S`, and every pair of consecutive chunks overlaps by exactly
`O` characters (the last `O` characters of one chunk are the first `O` of the
next). -/
theorem c4_chunk_bounds_and_overlap (S O : ℕ) (text : List Char)
    (hSO : O < S) (_hlen : 100 ≤ text.length) :
    (∀ c ∈ Ingest.split_text S O text, c.length ≤ S)
    ∧ Ingest.consecutiveOverlap O (Ingest.split_text S O text) = true :=
  ⟨chunkGo_length_le text.length text hSO (le_refl _),
   chunkGo_overlap hSO text.length text⟩

/-- Witness for C4 at `S = 5`, `O = 2` and a concrete 100-character text. -/
theorem c4_witness :
    (2 : ℕ) < 5
    ∧ 100 ≤ ("abcdefghijabcdefghijabcdefghijabcdefghijabcdefghijabcdefghijabcdefghijabcdefghijabcdefghijabcdefghij".toList).length
    ∧ ((∀ c ∈ Ingest.split_text 5 2 "abcdefghijabcdefghijabcdefghijabcdefghijabcdefghijabcdefghijabcdefghijabcdefghijabcdefghijabcdefghij".toList,
          c.length ≤ 5)
       ∧ Ingest.consecutiveOverlap 2
          (Ingest.split_text 5 2 "abcdefghijabcdefghijabcdefghijabcdefghijabcdefghijabcdefghijabcdefghijabcdefghijabcdefghijabcdefghij".toList) = true) :=
  ⟨by decide, by decide,
   c4_chunk_bounds_and_overlap 5 2 _ (by decide) (by decide)⟩

/-- Witness for C6 at a concrete limiter, key and instant. -/
theorem c6_witness :
    ((RateLimiterM.is_allowed ⟨3, 10, [("k", [0])]⟩ "k" 1).1 = true ↔
      ((RateLimiterM.getReq [("k", [0])] "k").filter
        (fun t => 1 - t < 10)).length < 3)
    ∧ RateLimiterM.getReq
        (RateLimiterM.is_allowed ⟨3, 10, [("k", [0])]⟩ "k" 1).2.requests "k" =
      (RateLimiterM.getReq [("k", [0])] "k").filter (fun t => 1 - t < 10) ++
        (if (RateLimiterM.is_allowed ⟨3, 10, [("k", [0])]⟩ "k" 1).1 then [1] else []) :=
  c6_is_allowed_spec.1 ⟨3, 10, [("k", [0])]⟩ "k" 1

/-! ## C2: duplicate submission of an active root URL -/

/-- C2 fails on the code: `crawl_status` is keyed by
`f"{url}_{int(time.time())}"`, but the already-running check looks up the bare
URL, so while the first job for `https://example.com` is still `running`, a
second submission of the same URL is accepted and creates a second job instead
of returning the AlreadyRunning (HTTP 409) outcome. -/
theorem c2_second_submit_accepted :
    (App.crawl [] "https://example.com" 100).1 =
      App.CrawlResponse.started "https://example.com_100"
    ∧ App.lookupStatus (App.crawl [] "https://example.com" 100).2
        "https://example.com_100" = some "running"
    ∧ (App.crawl (App.crawl [] "https://example.com" 100).2
        "https://example.com" 101).1 =
      App.CrawlResponse.started "https://example.com_101"
    ∧ (App.crawl (App.crawl [] "https://example.com" 100).2
        "https://example.com" 101).1 ≠ App.CrawlResponse.alreadyRunning
    ∧ ((App.crawl (App.crawl [] "https://example.com" 100).2
        "https://example.com" 101).2).length = 2 := by
  decide

/-! ## C7: the fetch guard is a silent no-op -/

/-- C7: once the job's error counter has reached `max_errors`, and likewise
for an already-visited URL or a job at its page cap, `fetch_and_parse`
performs no network request, produces no document, and returns the state
completely unchanged (no visited mark, no counter change, no log line). -/
theorem c7_guard_silent_no_op (net : String → Option AsyncRecursiveCrawler.HttpResponse)
    (parse : String → Option (String × String × String))
    (st : AsyncRecursiveCrawler.CrawlerState) (url : String) (depth : ℕ) :
    (st.max_errors ≤ st.error_count →
      AsyncRecursiveCrawler.fetch_and_parse net parse st url depth = ⟨none, st, false⟩)
    ∧ (url ∈ st.visited →
      AsyncRecursiveCrawler.fetch_and_parse net parse st url depth = ⟨none, st, false⟩)
    ∧ (st.max_pages ≤ st.documents.length →
      AsyncRecursiveCrawler.fetch_and_parse net parse st url depth = ⟨none, st, false⟩) := by
  refine ⟨fun h => ?_, fun h => ?_, fun h => ?_⟩ <;>
    · unfold AsyncRecursiveCrawler.fetch_and_parse
      rw [if_pos (by tauto)]

/-! ## Lemmas for the discovery claims -/

theorem subset_insertStr (a : String) (l : List String) : l ⊆ l.insert a := by
  intro x hx
  exact List.mem_insert_of_mem hx

theorem length_insertStr_le (a : String) (l : List String) :
    (l.insert a).length ≤ l.length + 1 := by
  by_cases h : a ∈ l
  · rw [List.insert_of_mem h]
    omega
  · rw [List.insert_of_not_mem h]
    simp

theorem foldl_state_preserves {α : Type} (P : AsyncURLDiscovery.DiscoveryState → Prop)
    (f : AsyncURLDiscovery.DiscoveryState → α → AsyncURLDiscovery.DiscoveryState) :
    ∀ (l : List α) (st : AsyncURLDiscovery.DiscoveryState),
      (∀ st' x, x ∈ l → P st' → P (f st' x)) → P st → P (l.foldl f st) := by
  intro l
  induction l with
  | nil => intro st _ h; exact h
  | cons a t ih =>
    intro st hstep h
    exact ih (f st a) (fun st' x hx => hstep st' x (by simp [hx]))
      (hstep st a (by simp) h)

theorem foldl_found_subset {α : Type}
    (f : AsyncURLDiscovery.DiscoveryState → α → AsyncURLDiscovery.DiscoveryState)
    (hf : ∀ st x, st.found_urls ⊆ (f st x).found_urls) :
    ∀ (l : List α) (st : AsyncURLDiscovery.DiscoveryState),
      st.found_urls ⊆ (l.foldl f st).found_urls := by
  intro l
  induction l with
  | nil => intro st; exact fun x hx => hx
  | cons a t ih =>
    intro st
    exact fun x hx => ih (f st a) (hf st a hx)

theorem fetch_found_subset (web : AsyncURLDiscovery.DiscoveryWeb)
    (st : AsyncURLDiscovery.DiscoveryState) (url : String) :
    st.found_urls ⊆ (AsyncURLDiscovery.fetch web st url).2.found_urls := by
  unfold AsyncURLDiscovery.fetch
  cases web url with
  | none => exact fun x hx => hx
  | some r =>
    by_cases h : containsS r.1 "text/html" = true
    · simp only [h, if_true]
      exact subset_insertStr _ _
    · simp only [h, if_false]
      exact subset_insertStr _ _

theorem processHref_found_subset
    (recurse : AsyncURLDiscovery.DiscoveryState → String → AsyncURLDiscovery.DiscoveryState)
    (hrec : ∀ st u, st.found_urls ⊆ (recurse st u).found_urls)
    (domain : String) (max_urls : ℕ) (base : String)
    (st : AsyncURLDiscovery.DiscoveryState) (href : String) :
    st.found_urls ⊆
      (AsyncURLDiscovery.processHref recurse domain max_urls base st href).found_urls := by
  simp only [AsyncURLDiscovery.processHref]
  split_ifs
  · exact fun x hx => hx
  · exact fun x hx => hx
  · exact fun x hx => hrec _ _ (List.mem_insert_of_mem hx)
  · exact subset_insertStr _ _
  · exact fun x hx => hx

theorem crawl_url_found_subset (web : AsyncURLDiscovery.DiscoveryWeb)
    (domain : String) (max_urls : ℕ) :
    ∀ (fuel : ℕ) (st : AsyncURLDiscovery.DiscoveryState) (url : String),
      st.found_urls ⊆ (AsyncURLDiscovery.crawl_url web domain max_urls fuel st url).found_urls := by
  intro fuel
  induction fuel with
  | zero => intro st url; exact fun x hx => hx
  | succ f ih =>
    intro st url
    simp only [AsyncURLDiscovery.crawl_url]
    split
    · exact fun x hx => hx
    · cases hm : AsyncURLDiscovery.fetch web
          { visited := List.insert url st.visited, found_urls := st.found_urls } url with
      | mk links st' =>
        have hfetch := fetch_found_subset web
          { visited := List.insert url st.visited, found_urls := st.found_urls } url
        rw [hm] at hfetch
        cases links with
        | none => exact hfetch
        | some hrefs =>
          intro x hx
          exact foldl_found_subset _
            (processHref_found_subset _ (fun st'' u => ih st'' u) domain max_urls url)
            hrefs st' (hfetch hx)

theorem fetch_cap (web : AsyncURLDiscovery.DiscoveryWeb)
    (st : AsyncURLDiscovery.DiscoveryState) (url : String) (m : ℕ)
    (h : st.found_urls.length < m) :
    (AsyncURLDiscovery.fetch web st url).2.found_urls.length ≤ m := by
  unfold AsyncURLDiscovery.fetch
  cases web url with
  | none => exact Nat.le_of_lt h
  | some r =>
    by_cases hct : containsS r.1 "text/html" = true
    · simp only [hct, if_true]
      show (List.insert url st.found_urls).length ≤ m
      have := length_insertStr_le url st.found_urls
      omega
    · simp only [hct, if_false]
      show (List.insert url st.found_urls).length ≤ m
      have := length_insertStr_le url st.found_urls
      omega

theorem processHref_cap
    (recurse : AsyncURLDiscovery.DiscoveryState → String → AsyncURLDiscovery.DiscoveryState)
    (domain : String) (max_urls : ℕ) (base : String)
    (hrec : ∀ st u, st.found_urls.length ≤ max_urls →
      (recurse st u).found_urls.length ≤ max_urls)
    (st : AsyncURLDiscovery.DiscoveryState) (href : String)
    (h : st.found_urls.length ≤ max_urls) :
    (AsyncURLDiscovery.processHref recurse domain max_urls base st href).found_urls.length ≤
      max_urls := by
  simp only [AsyncURLDiscovery.processHref]
  split_ifs with h1 h2 h3 h4
  · exact h
  · exact h
  · refine hrec _ _ ?_
    show (List.insert (AsyncURLDiscovery.normalize_url base (stripS href))
      st.found_urls).length ≤ max_urls
    have := length_insertStr_le
      (AsyncURLDiscovery.normalize_url base (stripS href)) st.found_urls
    omega
  · show (List.insert (AsyncURLDiscovery.normalize_url base (stripS href))
      st.found_urls).length ≤ max_urls
    have := length_insertStr_le
      (AsyncURLDiscovery.normalize_url base (stripS href)) st.found_urls
    omega
  · exact h

theorem crawl_url_cap (web : AsyncURLDiscovery.DiscoveryWeb)
    (domain : String) (max_urls : ℕ) :
    ∀ (fuel : ℕ) (st : AsyncURLDiscovery.DiscoveryState) (url : String),
      st.found_urls.length ≤ max_urls →
      (AsyncURLDiscovery.crawl_url web domain max_urls fuel st url).found_urls.length ≤
        max_urls := by
  intro fuel
  induction fuel with
  | zero => intro st url h; exact h
  | succ f ih =>
    intro st url h
    simp only [AsyncURLDiscovery.crawl_url]
    split
    · exact h
    · rename_i hguard
      have hlt : st.found_urls.length < max_urls := by
        rcases not_or.mp hguard with ⟨_, h2⟩
        omega
      cases hm : AsyncURLDiscovery.fetch web
          { visited := List.insert url st.visited, found_urls := st.found_urls } url with
      | mk links st' =>
        have hfetch : st'.found_urls.length ≤ max_urls := by
          have hc := fetch_cap web
            { visited := List.insert url st.visited, found_urls := st.found_urls }
            url max_urls hlt
          rw [hm] at hc
          exact hc
        cases links with
        | none => exact hfetch
        | some hrefs =>
          exact foldl_state_preserves
            (fun s => s.found_urls.length ≤ max_urls) _ hrefs st'
            (fun st'' x _ hx =>
              processHref_cap _ domain max_urls url (fun s u hs => ih s u hs) st'' x hx)
            hfetch

theorem fetch_netloc_inv (web : AsyncURLDiscovery.DiscoveryWeb)
    (st : AsyncURLDiscovery.DiscoveryState) (url : String) (Q : String → Prop)
    (hst : ∀ u ∈ st.found_urls, Q u) (hurl : Q url) :
    ∀ u ∈ (AsyncURLDiscovery.fetch web st url).2.found_urls, Q u := by
  unfold AsyncURLDiscovery.fetch
  cases web url with
  | none => exact hst
  | some r =>
    by_cases hct : containsS r.1 "text/html" = true
    · simp only [hct, if_true]
      intro u hu
      rcases List.mem_insert_iff.mp hu with rfl | hu'
      · exact hurl
      · exact hst u hu'
    · simp only [hct, if_false]
      intro u hu
      rcases List.mem_insert_iff.mp hu with rfl | hu'
      · exact hurl
      · exact hst u hu'

theorem processHref_netloc_inv
    (recurse : AsyncURLDiscovery.DiscoveryState → String → AsyncURLDiscovery.DiscoveryState)
    (domain : String) (max_urls : ℕ) (base : String) (Q : String → Prop)
    (hrec : ∀ st u, Q u → (∀ v ∈ st.found_urls, Q v) →
      ∀ v ∈ (recurse st u).found_urls, Q v)
    (hQ : ∀ u, endsWithS (urlparse_netloc u) domain = true → Q u)
    (st : AsyncURLDiscovery.DiscoveryState) (href : String)
    (hst : ∀ v ∈ st.found_urls, Q v) :
    ∀ v ∈ (AsyncURLDiscovery.processHref recurse domain max_urls base st href).found_urls,
      Q v := by
  simp only [AsyncURLDiscovery.processHref]
  split_ifs with h1 h2 h3 h4
  · exact hst
  · exact hst
  · refine hrec _ _ (hQ _ h3) ?_
    intro v hv
    rcases List.mem_insert_iff.mp hv with rfl | hv'
    · exact hQ _ h3
    · exact hst v hv'
  · intro v hv
    rcases List.mem_insert_iff.mp hv with rfl | hv'
    · exact hQ _ h3
    · exact hst v hv'
  · exact hst

theorem crawl_url_netloc_inv (web : AsyncURLDiscovery.DiscoveryWeb)
    (domain : String) (max_urls : ℕ) (Q : String → Prop)
    (hQ : ∀ u, endsWithS (urlparse_netloc u) domain = true → Q u) :
    ∀ (fuel : ℕ) (st : AsyncURLDiscovery.DiscoveryState) (url : String),
      Q url → (∀ v ∈ st.found_urls, Q v) →
      ∀ v ∈ (AsyncURLDiscovery.crawl_url web domain max_urls fuel st url).found_urls,
        Q v := by
  intro fuel
  induction fuel with
  | zero => intro st url _ hst; exact hst
  | succ f ih =>
    intro st url hurl hst
    simp only [AsyncURLDiscovery.crawl_url]
    split
    · exact hst
    · cases hm : AsyncURLDiscovery.fetch web
          { visited := List.insert url st.visited, found_urls := st.found_urls } url with
      | mk links st' =>
        have hf := fetch_netloc_inv web
          { visited := List.insert url st.visited, found_urls := st.found_urls }
          url Q hst hurl
        rw [hm] at hf
        cases links with
        | none => exact hf
        | some hrefs =>
          exact foldl_state_preserves (fun s => ∀ v ∈ s.found_urls, Q v) _ hrefs st'
            (fun st'' x _ hx =>
              processHref_netloc_inv _ domain max_urls url Q
                (fun s u hu hs => ih s u hu hs) hQ st'' x hx)
            hf

theorem mem_insortS {x a : String} {l : List String} :
    x ∈ AsyncURLDiscovery.insortS a l ↔ x = a ∨ x ∈ l := by
  induction l with
  | nil => simp [AsyncURLDiscovery.insortS]
  | cons b t ih =>
    by_cases h : AsyncURLDiscovery.strLe a b = true
    · simp [AsyncURLDiscovery.insortS, h]
    · simp [AsyncURLDiscovery.insortS, h, ih]
      tauto

theorem length_insortS (a : String) (l : List String) :
    (AsyncURLDiscovery.insortS a l).length = l.length + 1 := by
  induction l with
  | nil => rfl
  | cons b t ih =>
    by_cases h : AsyncURLDiscovery.strLe a b = true
    · simp [AsyncURLDiscovery.insortS, h]
    · simp [AsyncURLDiscovery.insortS, h, ih]

theorem mem_sortStrings {x : String} {l : List String} :
    x ∈ AsyncURLDiscovery.sortStrings l ↔ x ∈ l := by
  induction l with
  | nil => simp [AsyncURLDiscovery.sortStrings]
  | cons b t ih =>
    simp [AsyncURLDiscovery.sortStrings, List.foldr_cons, mem_insortS] at ih ⊢
    tauto

theorem length_sortStrings (l : List String) :
    (AsyncURLDiscovery.sortStrings l).length = l.length := by
  induction l with
  | nil => rfl
  | cons b t ih =>
    simp [AsyncURLDiscovery.sortStrings, List.foldr_cons, length_insortS] at ih ⊢
    exact ih

/-- C5: during a discovery run the found-set only ever grows, and the set
`discover` returns never holds more than `max_urls` entries. -/
theorem c5_found_monotone_and_capped :
    (∀ (web : AsyncURLDiscovery.DiscoveryWeb) (domain : String) (max_urls fuel : ℕ)
        (st : AsyncURLDiscovery.DiscoveryState) (url : String),
        st.found_urls ⊆
          (AsyncURLDiscovery.crawl_url web domain max_urls fuel st url).found_urls)
    ∧ (∀ (web : AsyncURLDiscovery.DiscoveryWeb) (domain : String)
        (max_urls fuel : ℕ) (seeds : List String),
        (AsyncURLDiscovery.discover web domain max_urls fuel seeds).length ≤ max_urls) := by
  constructor
  · intro web domain m fuel st url
    exact crawl_url_found_subset web domain m fuel st url
  · intro web domain m fuel seeds
    unfold AsyncURLDiscovery.discover
    rw [length_sortStrings]
    exact foldl_state_preserves (fun s => s.found_urls.length ≤ m) _ seeds ⟨[], []⟩
      (fun st x _ h => crawl_url_cap web domain m fuel st x h) (by simp)

/-- C1 (amended): every URL in the set `discover` returns is either one of the
seed URLs (recorded unconditionally on fetch) or passed the one filter
discovery applies — its netloc merely ends with the allowed-domain string.  No
exclusion-pattern, fragment or trailing-slash processing is performed. -/
theorem c1_discover_member_seed_or_suffix (web : AsyncURLDiscovery.DiscoveryWeb)
    (domain : String) (max_urls fuel : ℕ) (seeds : List String) (u : String)
    (h : u ∈ AsyncURLDiscovery.discover web domain max_urls fuel seeds) :
    u ∈ seeds ∨ endsWithS (urlparse_netloc u) domain = true := by
  unfold AsyncURLDiscovery.discover at h
  rw [mem_sortStrings] at h
  exact foldl_state_preserves
    (fun s => ∀ v ∈ s.found_urls,
      v ∈ seeds ∨ endsWithS (urlparse_netloc v) domain = true)
    _ seeds ⟨[], []⟩
    (fun st x hx hst =>
      crawl_url_netloc_inv web domain max_urls _ (fun v hv => Or.inr hv)
        fuel st x (Or.inl hx) hst)
    (by simp) u h

/-- Witness for C1's amended theorem on the fixture web. -/
theorem c1_witness :
    "https://kluniversity.in/file.pdf" ∈
      AsyncURLDiscovery.discover web0 "kluniversity.in" 100 3 ["https://kluniversity.in"]
    ∧ ("https://kluniversity.in/file.pdf" ∈ ["https://kluniversity.in"]
       ∨ endsWithS (urlparse_netloc "https://kluniversity.in/file.pdf")
          "kluniversity.in" = true) :=
  ⟨by decide,
   c1_discover_member_seed_or_suffix web0 "kluniversity.in" 100 3
     ["https://kluniversity.in"] "https://kluniversity.in/file.pdf" (by decide)⟩

/-- C1 counterexample: on the fixture web, `discover` returns a URL matching
an exclusion pattern (`.pdf`), one with a trailing slash, one with a fragment,
and one whose host is not the target domain or a subdomain of it — each
violating the CandidateURL invariant the claim asserts. -/
theorem c1_counterexample :
    "https://kluniversity.in/file.pdf" ∈
      AsyncURLDiscovery.discover web0 "kluniversity.in" 100 3 ["https://kluniversity.in"]
    ∧ candidate_url_invariant "kluniversity.in" "https://kluniversity.in/file.pdf" = false
    ∧ "https://kluniversity.in/a/" ∈
        AsyncURLDiscovery.discover web0 "kluniversity.in" 100 3 ["https://kluniversity.in"]
    ∧ endsWithS "https://kluniversity.in/a/" "/" = true
    ∧ "https://kluniversity.in/p#sec" ∈
        AsyncURLDiscovery.discover web0 "kluniversity.in" 100 3 ["https://kluniversity.in"]
    ∧ containsS "https://kluniversity.in/p#sec" "#" = true
    ∧ "https://evilkluniversity.in/x" ∈
        AsyncURLDiscovery.discover web0 "kluniversity.in" 100 3 ["https://kluniversity.in"]
    ∧ (urlparse_netloc "https://evilkluniversity.in/x" = "kluniversity.in"
        || endsWithS (urlparse_netloc "https://evilkluniversity.in/x")
            ("." ++ "kluniversity.in")) = false := by
  decide

/-- Witness for C5 at the fixture web and a nonempty starting found-set. -/
theorem c5_witness :
    ["https://kluniversity.in"] ⊆
      (AsyncURLDiscovery.crawl_url web0 "kluniversity.in" 100 3
        ⟨[], ["https://kluniversity.in"]⟩ "https://kluniversity.in").found_urls
    ∧ (AsyncURLDiscovery.discover web0 "kluniversity.in" 100 3
        ["https://kluniversity.in"]).length ≤ 100 :=
  ⟨c5_found_monotone_and_capped.1 web0 "kluniversity.in" 100 3
      ⟨[], ["https://kluniversity.in"]⟩ "https://kluniversity.in",
   c5_found_monotone_and_capped.2 web0 "kluniversity.in" 100 3
      ["https://kluniversity.in"]⟩

/-- Witness for C7: a crawler state whose error counter sits at the cap. -/
theorem c7_witness :
    ((AsyncRecursiveCrawler.CrawlerState.mk [] [] 100 1000 100 []).max_errors ≤
      (AsyncRecursiveCrawler.CrawlerState.mk [] [] 100 1000 100 []).error_count)
    ∧ AsyncRecursiveCrawler.fetch_and_parse (fun _ => none) (fun _ => none)
        ⟨[], [], 100, 1000, 100, []⟩ "https://example.com/x" 0 =
      ⟨none, ⟨[], [], 100, 1000, 100, []⟩, false⟩ :=
  ⟨by decide,
   (c7_guard_silent_no_op (fun _ => none) (fun _ => none)
     ⟨[], [], 100, 1000, 100, []⟩ "https://example.com/x" 0).1 (by decide)⟩

/-- C10: `get_remaining` reports `max(0, max_requests - live)`, is never
negative, records no timestamp (the key's list is exactly the purged list),
and leaves the verdict of any later `is_allowed` check unchanged. -/
theorem c10_get_remaining_frame (rl : RateLimiterM.RateLimiter) (key : String)
    (now now' : ℚ) (h : now ≤ now') :
    (RateLimiterM.get_remaining rl key now).1 =
      max 0 ((rl.max_requests : ℤ) -
        ((RateLimiterM.getReq rl.requests key).filter
          (fun t => now - t < rl.window_seconds)).length)
    ∧ 0 ≤ (RateLimiterM.get_remaining rl key now).1
    ∧ RateLimiterM.getReq (RateLimiterM.get_remaining rl key now).2.requests key =
        (RateLimiterM.getReq rl.requests key).filter
          (fun t => now - t < rl.window_seconds)
    ∧ (RateLimiterM.is_allowed (RateLimiterM.get_remaining rl key now).2 key now').1 =
        (RateLimiterM.is_allowed rl key now').1 := by
  refine ⟨rfl, le_max_left _ _, ?_, ?_⟩
  · unfold RateLimiterM.get_remaining
    rw [getReq_setReq_self]
  · unfold RateLimiterM.is_allowed RateLimiterM.get_remaining
    rw [getReq_setReq_self, filter_window_filter h]
    by_cases hc : ((RateLimiterM.getReq rl.requests key).filter
        (fun t => now' - t < rl.window_seconds)).length < rl.max_requests
    · simp [hc]
    · simp [hc]

/-- Witness for C10 at a concrete limiter, key and pair of instants. -/
theorem c10_witness :
    (6 : ℚ) ≤ 7 ∧
    ((RateLimiterM.get_remaining ⟨3, 10, [("k", [0, 5])]⟩ "k" 6).1 =
      max 0 (((RateLimiterM.RateLimiter.mk 3 10 [("k", [0, 5])]).max_requests : ℤ) -
        ((RateLimiterM.getReq (RateLimiterM.RateLimiter.mk 3 10 [("k", [0, 5])]).requests "k").filter
          (fun t => 6 - t < (RateLimiterM.RateLimiter.mk 3 10 [("k", [0, 5])]).window_seconds)).length)
    ∧ 0 ≤ (RateLimiterM.get_remaining ⟨3, 10, [("k", [0, 5])]⟩ "k" 6).1
    ∧ RateLimiterM.getReq (RateLimiterM.get_remaining ⟨3, 10, [("k", [0, 5])]⟩ "k" 6).2.requests "k" =
        (RateLimiterM.getReq (RateLimiterM.RateLimiter.mk 3 10 [("k", [0, 5])]).requests "k").filter
          (fun t => 6 - t < (RateLimiterM.RateLimiter.mk 3 10 [("k", [0, 5])]).window_seconds)
    ∧ (RateLimiterM.is_allowed (RateLimiterM.get_remaining ⟨3, 10, [("k", [0, 5])]⟩ "k" 6).2 "k" 7).1 =
        (RateLimiterM.is_allowed ⟨3, 10, [("k", [0, 5])]⟩ "k" 7).1) :=
  ⟨by norm_num, c10_get_remaining_frame ⟨3, 10, [("k", [0, 5])]⟩ "k" 6 7 (by norm_num)⟩

